import Mathlib

/-!
Verification of `cosmic-ext-notifications-ng` (crate `cosmic-notifications-util`)
against its natural-language specification.

The Rust sources are shallowly embedded: pure string functions become
executable Lean functions over `List Char` / `String`, and the effectful
audio entry points become pure functions that additionally return an
explicit record of the effects they perform (worker threads spawned).
Rust regex scans are embedded as equivalent explicit scanners; `\w` and
`\s` are modelled over their ASCII ranges, which covers every character
occurring in the claims.
-/

/-! ## Audio (`src/cosmic-notifications-util/src/audio.rs`) -/

/-- The `AudioError` enum of `audio.rs` (lines 121-135), variant for variant.
Note that the enum has no `PathNotAllowed` variant, although the crate's own
integration test `tests/audio_concurrency_tests.rs` matches on
`AudioError::PathNotAllowed(_)`. -/
inductive AudioError where
  | NoAudioDevice : AudioError
  | FileNotFound : String → AudioError
  | SoundNotFound : String → AudioError
  | IoError : String → AudioError
  | DecodeError : String → AudioError
  | PlaybackError : String → AudioError
deriving DecidableEq, Repr

/-- The ambient world seen by the audio worker: whether an output device can
be opened, whether `File::open` succeeds for a path, whether the decoder
accepts the bytes, and whether a sink can be created.  Error-message strings
are supplied by the environment, mirroring `e.to_string()` in the source. -/
structure AudioEnv where
  hasOutputDevice : Bool
  openOk : String → Bool
  openMsg : String → String
  decodeOk : String → Bool
  decodeMsg : String → String
  sinkOk : Bool
  sinkMsg : String

/-- The function `play_sound_file_blocking` (audio.rs lines 35-50): runs on the worker
thread, checks the output device, opens the file, decodes, creates a sink. -/
def play_sound_file_blocking (env : AudioEnv) (path : String) :
    Except AudioError Unit :=
  if env.hasOutputDevice = false then
    Except.error AudioError.NoAudioDevice
  else if env.openOk path = false then
    Except.error (AudioError.IoError (env.openMsg path))
  else if env.decodeOk path = false then
    Except.error (AudioError.DecodeError (env.decodeMsg path))
  else if env.sinkOk = false then
    Except.error (AudioError.PlaybackError env.sinkMsg)
  else
    Except.ok ()

/-- The function `play_sound_file` (audio.rs lines 17-32).  `fs p` tells whether
`Path::exists` holds for `p`.  The second component lists the worker
threads spawned by the call (one entry per `thread::spawn`, recording the
path handed to the worker).  The function checks existence, then
unconditionally spawns a worker and returns `Ok(())`; there is no path
validation and no concurrency counter in the source. -/
def play_sound_file (fs : String → Bool) (path : String) :
    Except AudioError Unit × List String :=
  if fs path = false then
    (Except.error (AudioError.FileNotFound path), [])
  else
    (Except.ok (), [path])

/-- The caller-visible result of `play_sound_file` together with the outcome
of the spawned worker (which the source only logs via `error!`, never
returns): the worker outcomes list is the log, not part of the result. -/
def play_sound_file_with_worker (fs : String → Bool) (env : AudioEnv)
    (path : String) : Except AudioError Unit × List (Except AudioError Unit) :=
  if fs path = false then
    (Except.error (AudioError.FileNotFound path), [])
  else
    (Except.ok (), [play_sound_file_blocking env path])

/-- N requests issued back to back (the source has no shared state, so the
interleaving is irrelevant: each call behaves independently).  Returns the
list of caller-visible results and the list of all spawned workers. -/
def processRequests (fs : String → Bool) (reqs : List String) :
    List (Except AudioError Unit) × List String :=
  match reqs with
  | [] => ([], [])
  | p :: rest =>
    let r := play_sound_file fs p
    let rs := processRequests fs rest
    (r.1 :: rs.1, r.2 ++ rs.2)

/-- Modelled from the spec: the allowed sound roots (the home-relative
`.local/share/sounds` tree and the system `/usr/share/sounds` and
`/usr/local/share/sounds` trees).  `audio.rs` contains no such check; this
predicate renders the spec's allow-list so that the failing input below can
be shown to lie outside every allowed root. -/
def isAllowedSoundPath (home : String) (path : String) : Bool :=
  (home ++ "/.local/share/sounds").toList.isPrefixOf path.toList ||
  "/usr/share/sounds".toList.isPrefixOf path.toList ||
  "/usr/local/share/sounds".toList.isPrefixOf path.toList

/-- A filesystem in which exactly the paths in `l` exist. -/
def fsOf (l : List String) : String → Bool := fun p => l.contains p

/-- An environment in which every step of the worker succeeds. -/
def envAllOk : AudioEnv :=
  { hasOutputDevice := true
    openOk := fun _ => true
    openMsg := fun _ => ""
    decodeOk := fun _ => true
    decodeMsg := fun _ => ""
    sinkOk := true
    sinkMsg := "" }

/-! ## String replacement (Rust `str::replace`)

`str::replace(pat, rep)` replaces every non-overlapping occurrence of `pat`,
scanning left to right.  `replaceAllF` is the same scan with an explicit
fuel argument so that the recursion is structural (the fuel only needs to be
at least the length of the input, see `replaceAll`). -/

/-- One left-to-right replacement scan, fueled. -/
def replaceAllF : Nat → List Char → List Char → List Char → List Char
  | 0, _, _, s => s
  | _ + 1, _, _, [] => []
  | fuel + 1, p, r, c :: rest =>
    if p.isPrefixOf (c :: rest) then
      r ++ replaceAllF fuel p r (List.drop p.length (c :: rest))
    else
      c :: replaceAllF fuel p r rest

/-- Rust `str::replace` over `List Char`. -/
def replaceAll (p r s : List Char) : List Char :=
  replaceAllF s.length p r s

/-- The apostrophe character. -/
def apos : Char := Char.ofNat 39

/-! ## Entity decoders

`sanitizer.rs` (lines 148-162) and `markup_parser.rs` (lines 157-167) each
contain a private `decode_entities`; they apply different substitution lists
in different orders.  Crucially, the sanitizer applies `&amp;` → `&` last,
while the markup parser applies it third, before the quote and colon
substitutions. -/

namespace Sanitizer

/-- The `decode_entities` of sanitizer.rs: the exact `replace` chain of lines
149-161, innermost first (`&lt;` first, `&amp;` last). -/
def decodeEntitiesL (s : List Char) : List Char :=
  replaceAll "&amp;".toList "&".toList
  (replaceAll "&#61;".toList "=".toList
  (replaceAll "&#x3A;".toList ":".toList
  (replaceAll "&#58;".toList ":".toList
  (replaceAll "&#32;".toList " ".toList
  (replaceAll "&#47;".toList "/".toList
  (replaceAll "&#x27;".toList [apos]
  (replaceAll "&#x2F;".toList "/".toList
  (replaceAll "&#39;".toList [apos]
  (replaceAll "&quot;".toList "\"".toList
  (replaceAll "&gt;".toList ">".toList
  (replaceAll "&lt;".toList "<".toList s)))))))))))

/-- String-level wrapper with the source's name. -/
def decode_entities (text : String) : String :=
  (decodeEntitiesL text.toList).asString

end Sanitizer

namespace Markup

/-- The `decode_entities` of markup_parser.rs: the exact `replace` chain of
lines 158-166, innermost first.  `&amp;` is replaced third, before the
quote, apostrophe and colon substitutions. -/
def decodeEntitiesL (s : List Char) : List Char :=
  replaceAll "&nbsp;".toList " ".toList
  (replaceAll "&#x3A;".toList ":".toList
  (replaceAll "&#58;".toList ":".toList
  (replaceAll "&#x27;".toList [apos]
  (replaceAll "&#39;".toList [apos]
  (replaceAll "&quot;".toList "\"".toList
  (replaceAll "&amp;".toList "&".toList
  (replaceAll "&gt;".toList ">".toList
  (replaceAll "&lt;".toList "<".toList s))))))))

/-- String-level wrapper with the source's name. -/
def decode_entities (text : String) : String :=
  (decodeEntitiesL text.toList).asString

end Markup

/-! ## Tag stripping (`strip_html`, sanitizer.rs lines 62-88)

`regex::Regex::new("<[^>]*>").replace_all(s, "")` removes, repeatedly, the
span from each leftmost unconsumed `<` through the first following `>`
(inclusive); a `<` with no later `>` is left in place.  `stripTagsF` is that
scan with explicit fuel (any fuel at least the input length suffices). -/

/-- The suffix after the first `>` of a list, if any. -/
def afterFirstGt : List Char → Option (List Char)
  | [] => none
  | c :: rest => if c = '>' then some rest else afterFirstGt rest

/-- The `replace_all` of the regex `<[^>]*>` with the empty string, fueled. -/
def stripTagsF : Nat → List Char → List Char
  | 0, s => s
  | _ + 1, [] => []
  | fuel + 1, c :: rest =>
    if c = '<' then
      match afterFirstGt rest with
      | some rest2 => stripTagsF fuel rest2
      | none => c :: rest
    else
      c :: stripTagsF fuel rest

/-- Tag stripping over `List Char`. -/
def stripTags (s : List Char) : List Char :=
  stripTagsF s.length s

/-- Whether the regex `<[^>]*>` has a match: some `<` with a `>` after it. -/
def hasTagMatch : List Char → Bool
  | [] => false
  | c :: rest => (c = '<' && rest.contains '>') || hasTagMatch rest

/-- The `strip_html` of sanitizer.rs: strip literal tags, decode entities once,
strip the tags revealed by decoding.  Exactly two strip passes and one
decode pass; no convergence loop. -/
def strip_htmlL (s : List Char) : List Char :=
  stripTags (Sanitizer.decodeEntitiesL (stripTags s))

/-- String-level wrapper with the source's name. -/
def strip_html (html : String) : String :=
  (strip_htmlL html.toList).asString

/-! ## Link extraction (`extract_hrefs`, sanitizer.rs lines 97-145)

The anchor regex
`<a\s+[^>]*href\s*=\s*["']([^"']+)["'][^>]*>([^<]*)</a>` only *enumerates*
candidate `(url, text)` pairs; the claim under verification concerns the
scheme filter applied to every candidate.  The enumeration is therefore
taken as an arbitrary function `captures` (the theorem below holds for every
enumeration, in particular for the one the regex engine implements), while
the two-phase filtering and deduplication logic of lines 112-144 is embedded
verbatim. -/

/-- The URL allow-list test of sanitizer.rs lines 118 and 136
(`starts_with` on the three safe scheme spellings). -/
def urlAllowed (url : String) : Bool :=
  "https://".toList.isPrefixOf url.toList ||
  "http://".toList.isPrefixOf url.toList ||
  "mailto:".toList.isPrefixOf url.toList

/-- One step of the second loop of `extract_hrefs` (lines 131-142): append a
decoded-pass candidate only if its URL is allowed and not already present. -/
def extractStep (results : List (String × String)) (cand : String × String) :
    List (String × String) :=
  if urlAllowed cand.1 = true ∧ results.all (fun r => r.1 ≠ cand.1) then
    results ++ [cand]
  else
    results

/-- The function `extract_hrefs` (lines 97-145): filter the raw-input candidates by the
scheme allow-list, then decode entities once and append the decoded-input
candidates that are allowed and not yet present. -/
def extract_hrefs (captures : String → List (String × String))
    (html : String) : List (String × String) :=
  let first := (captures html).filter (fun cand => urlAllowed cand.1)
  let decoded := Sanitizer.decode_entities html
  (captures decoded).foldl extractStep first

/-! ## Markup parsing (`parse_markup`, markup_parser.rs lines 57-154)

The scan regex `<(/?)(\w+)(?:\s+[^>]*)?>` matches a `<`, an optional `/`,
one or more word characters, and then either an immediate `>` or at least
one whitespace character followed by everything up to and including the
first subsequent `>`.  `\w`/`\s` are modelled over their ASCII ranges. -/

/-- ASCII model of the regex class `\w`. -/
def isWordChar (c : Char) : Bool := c.isAlphanum || c = '_'

/-- ASCII model of the regex class `\s`. -/
def isSpaceChar (c : Char) : Bool := c = ' ' || c = '\t' || c = '\n' || c = '\r'

/-! ## `has_rich_content` (sanitizer.rs lines 47-52)

The regex `<\s*/?(?:b|i|u|a|p|br)(?:\s+[^>]*)?>` matches a `<`, optional
whitespace, an optional `/`, one of the six vocabulary names, and then
either an immediate `>` or at least one whitespace character with a `>`
somewhere after it.  `matchRichAt` decides a match anchored at the current
position; `hasRichAux` scans all positions (`is_match`). -/

/-- The tag-name alternation `(?:b|i|u|a|p|br)`. -/
def vocabNames : List (List Char) := [['b'], ['i'], ['u'], ['a'], ['p'], ['b', 'r']]

/-- What may follow the tag name: an immediate `>`, or whitespace and a
later `>` (the group `(?:\s+[^>]*)?` followed by `>`). -/
def richTail : List Char → Bool
  | [] => false
  | c :: rest => c = '>' || (isSpaceChar c && rest.contains '>')

/-- The optional `/?` after the whitespace: skip one leading `/`. -/
def stripLeadSlash (l : List Char) : List Char :=
  if l.head? = some '/' then l.tail else l

/-- Does the rich-content regex match starting exactly here? -/
def matchRichAt : List Char → Bool
  | [] => false
  | c :: rest =>
    if c = '<' then
      vocabNames.any (fun name =>
        name.isPrefixOf (stripLeadSlash (rest.dropWhile isSpaceChar)) &&
        richTail ((stripLeadSlash (rest.dropWhile isSpaceChar)).drop name.length))
    else false

/-- Rust `is_match`: does the regex match at some position? -/
def hasRichAux : List Char → Bool
  | [] => false
  | c :: rest => matchRichAt (c :: rest) || hasRichAux rest

/-- The `has_rich_content` of sanitizer.rs. -/
def has_rich_content (text : String) : Bool := hasRichAux text.toList

/-- Spec-side rendering of what follows a vocabulary name in a match. -/
def TailOk (tail : List Char) : Prop :=
  (∃ t, tail = '>' :: t) ∨
  (∃ w t, tail = w :: t ∧ isSpaceChar w = true ∧ '>' ∈ t)

/-- Spec-side characterization of the matched shape: somewhere in the text
there is a `<`, then optional whitespace, an optional `/`, a vocabulary
name, and an admissible tail. -/
def HasVocabTag (s : List Char) : Prop :=
  ∃ (pre ws sl name tail : List Char),
    s = pre ++ '<' :: (ws ++ sl ++ name ++ tail) ∧
    (∀ c ∈ ws, isSpaceChar c = true) ∧
    (sl = [] ∨ sl = ['/']) ∧
    name ∈ vocabNames ∧
    TailOk tail

namespace Markup

/-- The `TextStyle` struct of markup_parser.rs (lines 9-14). -/
structure TextStyle where
  bold : Bool
  italic : Bool
  underline : Bool
deriving DecidableEq, Repr

/-- Rust `TextStyle::default()`. -/
def defaultStyle : TextStyle := ⟨false, false, false⟩

/-- The `StyledSegment` struct of markup_parser.rs (lines 17-22). -/
structure StyledSegment where
  text : String
  style : TextStyle
  link : Option String
deriving DecidableEq, Repr

/-- Rust `StyledSegment::plain` (lines 26-32). -/
def StyledSegment.plain (t : String) : StyledSegment := ⟨t, defaultStyle, none⟩

/-- Split a list at its first `>`: the part before it and the part after. -/
def splitFirstGt : List Char → Option (List Char × List Char)
  | [] => none
  | c :: rest =>
    if c = '>' then some ([], rest)
    else
      match splitFirstGt rest with
      | some (a, b) => some (c :: a, b)
      | none => none

/-- Rust `str::to_lowercase` on an ASCII tag name. -/
def lowerName (name : List Char) : String := (name.map Char.toLower).asString

/-- Attempt to match the tag regex at the head of the input.  On success
returns (is-closing, lowercased tag name, full match text, rest of input
after the match); `none` means the regex does not match at this position. -/
def tryParseTag (s : List Char) : Option (Bool × String × List Char × List Char) :=
  match s with
  | '<' :: rest =>
    let closing := match rest with | '/' :: _ => true | _ => false
    let rest1 := match rest with | '/' :: r => r | _ => rest
    let name := rest1.takeWhile isWordChar
    if name = [] then none
    else
      let pre : List Char := if closing then ['<', '/'] else ['<']
      match rest1.drop name.length with
      | '>' :: rest3 => some (closing, lowerName name, pre ++ name ++ ['>'], rest3)
      | c :: r2 =>
        if isSpaceChar c then
          match splitFirstGt (c :: r2) with
          | some (mid, rest3) =>
            some (closing, lowerName name, pre ++ name ++ mid ++ ['>'], rest3)
          | none => none
        else none
      | [] => none
  | _ => none

/-- Token stream produced by the regex scan: the text runs between matches
and the tag matches themselves. -/
inductive MarkupToken where
  | textTok (s : List Char) : MarkupToken
  | tagTok (closing : Bool) (name : String) (full : List Char) : MarkupToken
deriving DecidableEq

/-- Emit the pending (reversed) text buffer as a token, if nonempty —
mirroring the `!text_before.is_empty()` check of line 76. -/
def textToken (acc : List Char) : List MarkupToken :=
  if acc = [] then [] else [MarkupToken.textTok acc.reverse]

/-- The `captures_iter` scan: walk the input, matching the tag regex at each
position, collecting the text between matches.  Fueled to keep the
recursion structural; every step consumes at least one character, so
`fuel = length` (as used by `tokenize`) never runs out. -/
def tokenizeF : Nat → List Char → List Char → List MarkupToken
  | 0, acc, s => textToken (s.reverse ++ acc)
  | _ + 1, acc, [] => textToken acc
  | fuel + 1, acc, c :: rest =>
    match tryParseTag (c :: rest) with
    | some (cl, n, f, rest2) =>
      textToken acc ++ MarkupToken.tagTok cl n f :: tokenizeF fuel [] rest2
    | none => tokenizeF fuel (c :: acc) rest

/-- Tokenize a whole input. -/
def tokenize (s : List Char) : List MarkupToken := tokenizeF s.length [] s

/-- Is `c` one of the quote characters of the href regex class `["']`? -/
def isQuoteChar (c : Char) : Bool := c = '"' || c = apos

/-- Attempt to match `href=["']([^"']+)["']` (the `href_pattern` of line 65)
exactly at the head of the input, returning the captured URL. -/
def tryHrefAt : List Char → Option String
  | 'h' :: 'r' :: 'e' :: 'f' :: '=' :: q :: rest =>
    if isQuoteChar q then
      let content := rest.takeWhile (fun c => !(isQuoteChar c))
      match rest.drop content.length with
      | c2 :: _ =>
        if content ≠ [] ∧ isQuoteChar c2 then some content.asString else none
      | [] => none
    else none
  | _ => none

/-- Leftmost match of the href pattern inside the full tag text. -/
def findHref : List Char → Option String
  | [] => none
  | c :: rest =>
    match tryHrefAt (c :: rest) with
    | some u => some u
    | none => findHref rest

/-- The mutable state of the `parse_markup` scan: the segments emitted so
far, the current style, the current link, and the style stack of
`(tag kind, style before, link before)` frames. -/
structure ParseState where
  segments : List StyledSegment
  style : TextStyle
  link : Option String
  stack : List (String × TextStyle × Option String)
deriving DecidableEq

/-- The state at the start of the scan (lines 58-61). -/
def initState : ParseState := ⟨[], defaultStyle, none, []⟩

/-- The closing-tag branch of `parse_markup` (lines 89-96): `pop()` always
removes the top frame when the stack is nonempty; the saved style and link
are restored only when the popped frame's tag kind equals the closing tag's
name. -/
def handleClosing (tagName : String) (st : ParseState) : ParseState :=
  match st.stack with
  | [] => st
  | (expected, prevStyle, prevLink) :: restStack =>
    if expected = tagName then
      { st with stack := restStack, style := prevStyle, link := prevLink }
    else
      { st with stack := restStack }

/-- The opening-tag branch of `parse_markup` (lines 97-131): push a frame
recording the style and link in effect before the change, then apply the
change; an anchor without a recognizable `href` changes nothing; `br`/`p`
emit a literal newline segment. -/
def handleOpening (tagName : String) (full : List Char) (st : ParseState) :
    ParseState :=
  if tagName = "b" ∨ tagName = "strong" then
    { st with stack := ("b", st.style, st.link) :: st.stack,
              style := { st.style with bold := true } }
  else if tagName = "i" ∨ tagName = "em" then
    { st with stack := ("i", st.style, st.link) :: st.stack,
              style := { st.style with italic := true } }
  else if tagName = "u" then
    { st with stack := ("u", st.style, st.link) :: st.stack,
              style := { st.style with underline := true } }
  else if tagName = "a" then
    match findHref full with
    | some url =>
      { st with stack := ("a", st.style, st.link) :: st.stack,
                link := some (decode_entities url),
                style := { st.style with underline := true } }
    | none => st
  else if tagName = "br" ∨ tagName = "p" then
    { st with segments := st.segments ++ [StyledSegment.plain "\n"] }
  else st

/-- Process one token of the scan: text is decoded and emitted with the
current style and link (if the decoded text is nonempty, line 78); tags
dispatch to the closing or opening branch. -/
def processToken (st : ParseState) (tok : MarkupToken) : ParseState :=
  match tok with
  | MarkupToken.textTok chunk =>
    let decoded := decodeEntitiesL chunk
    if decoded = [] then st
    else { st with segments := st.segments ++ [⟨decoded.asString, st.style, st.link⟩] }
  | MarkupToken.tagTok true name _ => handleClosing name st
  | MarkupToken.tagTok false name full => handleOpening name full st

/-- One step of `merge_segments` (lines 170-184): if the last emitted
segment has the same style and link, append the text to it; otherwise push
a new segment. -/
def mergeStep (merged : List StyledSegment) (segment : StyledSegment) :
    List StyledSegment :=
  match merged.getLast? with
  | some last =>
    if last.style = segment.style ∧ last.link = segment.link then
      merged.dropLast ++ [{ last with text := last.text ++ segment.text }]
    else merged ++ [segment]
  | none => merged ++ [segment]

/-- The function `merge_segments` (lines 170-184). -/
def merge_segments (segments : List StyledSegment) : List StyledSegment :=
  segments.foldl mergeStep []

/-- The function `parse_markup` (lines 57-154): tokenize, fold the token handlers over
the initial state, fall back to one plain decoded segment when no segment
was produced and the input is nonempty (line 148), and merge. -/
def parse_markup (html : String) : List StyledSegment :=
  let finalState := (tokenize html.toList).foldl processToken initState
  let segs :=
    if finalState.segments = [] ∧ html.isEmpty = false then
      [StyledSegment.plain (decode_entities html)]
    else finalState.segments
  merge_segments segs

/-- Two segments the merge pass would combine. -/
def Mergeable (a b : StyledSegment) : Prop :=
  a.style = b.style ∧ a.link = b.link

end Markup

/-- C1: the claim states that a playback request whose resolved path lies
outside every allowed sound root yields `PathNotAllowed` with no file open
and no worker spawn.  The code has no such check (and `AudioError` has no
`PathNotAllowed` variant at all): for the existing file
`/tmp/malicious_sound.wav`, which lies outside every allowed root,
`play_sound_file` returns `Ok(())` and spawns a playback worker for that
very path — exactly the input on which the crate's own test
`test_path_outside_allowed_directories_rejected` expects
`Err(PathNotAllowed)`. -/
theorem c1_path_confinement_missing :
    isAllowedSoundPath "/home/user" "/tmp/malicious_sound.wav" = false ∧
    play_sound_file (fsOf ["/tmp/malicious_sound.wav"]) "/tmp/malicious_sound.wav"
      = (Except.ok (), ["/tmp/malicious_sound.wav"]) := by
  constructor
  · decide
  · rfl

/-- C2: the claim states that of N simultaneous valid requests exceeding the
concurrency ceiling (4 in the crate's own tests), at most ceiling-many run
the decode step and the excess is silently dropped.  The code has no counter
and no ceiling: 10 valid requests for an existing file inside an allowed
root all return success and spawn 10 playback workers — nothing is
dropped. -/
theorem c2_no_concurrency_cap :
    (processRequests
        (fsOf ["/home/user/.local/share/sounds/test_concurrent_sound.wav"])
        (List.replicate 10 "/home/user/.local/share/sounds/test_concurrent_sound.wav")).1
      = List.replicate 10 (Except.ok ()) ∧
    (processRequests
        (fsOf ["/home/user/.local/share/sounds/test_concurrent_sound.wav"])
        (List.replicate 10 "/home/user/.local/share/sounds/test_concurrent_sound.wav")).2.length
      = 10 ∧
    isAllowedSoundPath "/home/user"
        "/home/user/.local/share/sounds/test_concurrent_sound.wav" = true ∧
    4 < (processRequests
        (fsOf ["/home/user/.local/share/sounds/test_concurrent_sound.wav"])
        (List.replicate 10 "/home/user/.local/share/sounds/test_concurrent_sound.wav")).2.length := by
  refine ⟨rfl, rfl, by decide, by decide⟩

/-- C9 counterexample: the claim asserts that a disallowed path produces a
synchronous `PathNotAllowed` error.  For the existing file
`/tmp/malicious_sound.wav`, which lies outside every allowed sound root,
`play_sound_file` instead returns `Ok(())` (and spawns a worker), so the
claim is false as stated. -/
theorem c9_disallowed_path_returns_ok :
    (play_sound_file_with_worker (fsOf ["/tmp/malicious_sound.wav"]) envAllOk
        "/tmp/malicious_sound.wav").1 = Except.ok () ∧
    isAllowedSoundPath "/home/user" "/tmp/malicious_sound.wav" = false := by
  exact ⟨rfl, by decide⟩

/-- C9 (amended): `play_sound_file` returns an error only from the
synchronous existence check performed before any worker thread is spawned
(`FileNotFound`, the only synchronously detectable error in the source);
whenever it errors no worker is spawned, for an existing path it returns
success, and the caller-visible result is independent of everything that
happens inside the worker (device, open, decode, sink outcomes are never
propagated). -/
theorem c9_errors_synchronous_amended :
    ∀ (fs : String → Bool) (env env2 : AudioEnv) (path : String),
      (play_sound_file_with_worker fs env path).1 =
        (play_sound_file_with_worker fs env2 path).1 ∧
      (∀ e : AudioError, (play_sound_file_with_worker fs env path).1 = Except.error e →
        e = AudioError.FileNotFound path ∧
        (play_sound_file_with_worker fs env path).2 = []) ∧
      (fs path = true → (play_sound_file_with_worker fs env path).1 = Except.ok ()) := by
  intro fs env env2 path
  unfold play_sound_file_with_worker
  by_cases h : fs path = false
  · simp [h]
  · simp [h]

/-- Witness for `c9_errors_synchronous_amended` at concrete inputs: a
missing file yields `FileNotFound` with no worker, an existing one yields
success. -/
theorem c9_errors_synchronous_amended_witness :
    (AudioError.FileNotFound "/gone.wav" = AudioError.FileNotFound "/gone.wav" ∧
      (play_sound_file_with_worker (fsOf []) envAllOk "/gone.wav").2 = []) ∧
    (play_sound_file_with_worker (fsOf ["/a.wav"]) envAllOk "/a.wav").1 = Except.ok () := by
  refine ⟨(c9_errors_synchronous_amended (fsOf []) envAllOk envAllOk "/gone.wav").2.1
      (AudioError.FileNotFound "/gone.wav") (by rfl), ?_⟩
  exact (c9_errors_synchronous_amended (fsOf ["/a.wav"]) envAllOk envAllOk "/a.wav").2.2
    (by decide)

/-- Any character of a replacement result is either a character of the input
or a character of the replacement string coming from an occurrence of the
pattern in the input. -/
theorem mem_replaceAllF {p r : List Char} (hp : p ≠ []) :
    ∀ (fuel : Nat) (s : List Char), s.length ≤ fuel → ∀ c : Char,
      c ∈ replaceAllF fuel p r s → c ∈ s ∨ (c ∈ r ∧ p <:+: s) := by
  intro fuel
  induction fuel with
  | zero =>
    intro s _ c hc
    exact Or.inl hc
  | succ n ih =>
    intro s hs c hc
    match s with
    | [] => simp [replaceAllF] at hc
    | a :: rest =>
      rw [replaceAllF] at hc
      by_cases hpre : p.isPrefixOf (a :: rest)
      · rw [if_pos hpre] at hc
        rcases List.mem_append.mp hc with hr | hrec
        · exact Or.inr ⟨hr, (List.isPrefixOf_iff_prefix.mp hpre).isInfix⟩
        · have hlen : (List.drop p.length (a :: rest)).length ≤ n := by
            have hplen : 1 ≤ p.length := by
              cases p with
              | nil => exact absurd rfl hp
              | cons x xs => simp
            have := List.length_drop p.length (a :: rest)
            omega
          rcases ih (List.drop p.length (a :: rest)) hlen c hrec with hm | ⟨hr, hinf⟩
          · exact Or.inl (List.mem_of_mem_drop hm)
          · exact Or.inr ⟨hr, hinf.trans (List.drop_suffix _ _).isInfix⟩
      · rw [if_neg hpre] at hc
        rcases List.mem_cons.mp hc with hc | hrec
        · exact Or.inl (hc ▸ List.mem_cons_self a rest)
        · have hlen : rest.length ≤ n := by
            simp at hs; omega
          rcases ih rest hlen c hrec with hm | ⟨hr, hinf⟩
          · exact Or.inl (List.mem_cons_of_mem a hm)
          · exact Or.inr ⟨hr, hinf.trans (List.suffix_cons a rest).isInfix⟩

/-- Same statement for `replaceAll`. -/
theorem mem_replaceAll {p r : List Char} (hp : p ≠ []) (s : List Char)
    (c : Char) (hc : c ∈ replaceAll p r s) : c ∈ s ∨ (c ∈ r ∧ p <:+: s) :=
  mem_replaceAllF hp s.length s le_rfl c hc

/-- Specialization used to peel the later substitution steps: if the
replacement string does not contain `c`, then `c` in the output came from the
input. -/
theorem mem_of_mem_replaceAll {p r : List Char} (hp : p ≠ []) (hr : ∀ x ∈ r, x ≠ '<')
    {s : List Char} (hc : '<' ∈ replaceAll p r s) : '<' ∈ s := by
  rcases mem_replaceAll hp s _ hc with h | ⟨h, _⟩
  · exact h
  · exact absurd rfl (hr _ h)

namespace Sanitizer

/-- A live `<` in the sanitizer decoder's output can only come from a live
`<` in the input or from a singly-encoded `&lt;` in the input — never from a
doubly-encoded `&amp;lt;`, because `&amp;` is replaced last. -/
theorem lt_mem_decodeEntitiesL (s : List Char)
    (h : '<' ∈ decodeEntitiesL s) : '<' ∈ s ∨ "&lt;".toList <:+: s := by
  unfold decodeEntitiesL at h
  have h1 := mem_of_mem_replaceAll (by decide) (by decide) h
  have h2 := mem_of_mem_replaceAll (by decide) (by decide) h1
  have h3 := mem_of_mem_replaceAll (by decide) (by decide) h2
  have h4 := mem_of_mem_replaceAll (by decide) (by decide) h3
  have h5 := mem_of_mem_replaceAll (by decide) (by decide) h4
  have h6 := mem_of_mem_replaceAll (by decide) (by decide) h5
  have h7 := mem_of_mem_replaceAll (by decide) (by decide) h6
  have h8 := mem_of_mem_replaceAll (by decide) (by decide) h7
  have h9 := mem_of_mem_replaceAll (by decide) (by decide) h8
  have h10 := mem_of_mem_replaceAll (by decide) (by decide) h9
  have h11 := mem_of_mem_replaceAll (by decide) (by decide) h10
  rcases mem_replaceAll (p := "&lt;".toList) (by decide) s _ h11 with hm | ⟨_, hinf⟩
  · exact Or.inl hm
  · exact Or.inr hinf

end Sanitizer

/-- C3 counterexample: the claim covers both `decode_entities`
implementations and asserts that `&amp;` is replaced last, so that
`&amp;quot;` maps to the literal text `&quot;` and `&amp;#58;` to `&#58;`.
The markup parser's decoder replaces `&amp;` third: it double-decodes
`&amp;quot;` to the live quote character and `&amp;#58;` to the live
colon. -/
theorem c3_markup_decoder_double_decodes :
    Markup.decode_entities "&amp;quot;" = "\"" ∧
    Markup.decode_entities "&amp;#58;" = ":" := by
  constructor <;> rfl

/-- C3 (amended): the sanitizer's decoder does apply `&amp;` → `&` last in a
single pass: it maps `&amp;lt;` to `&lt;`, `&amp;quot;` to `&quot;` and
`&amp;#58;` to `&#58;`, and a live `<` can appear in its output only if the
input already contained a live `<` or a singly-encoded `&lt;`.  The markup
parser's decoder replaces `&amp;` before the quote and colon substitutions:
it still maps `&amp;lt;` to `&lt;`, but double-decodes `&amp;quot;` and
`&amp;#58;` to the live quote and colon characters. -/
theorem c3_decoder_ordering_amended :
    (∀ s : List Char, '<' ∈ Sanitizer.decodeEntitiesL s →
      '<' ∈ s ∨ "&lt;".toList <:+: s) ∧
    Sanitizer.decode_entities "&amp;lt;" = "&lt;" ∧
    Sanitizer.decode_entities "&amp;quot;" = "&quot;" ∧
    Sanitizer.decode_entities "&amp;#58;" = "&#58;" ∧
    Markup.decode_entities "&amp;lt;" = "&lt;" ∧
    Markup.decode_entities "&amp;quot;" = "\"" ∧
    Markup.decode_entities "&amp;#58;" = ":" := by
  exact ⟨Sanitizer.lt_mem_decodeEntitiesL, rfl, rfl, rfl, rfl, rfl, rfl⟩

/-- Witness for `c3_decoder_ordering_amended`: the universal part applied at
the concrete input `"<"`. -/
theorem c3_decoder_ordering_amended_witness :
    '<' ∈ "<".toList ∨ "&lt;".toList <:+: "<".toList :=
  c3_decoder_ordering_amended.1 "<".toList (by decide)

theorem afterFirstGt_length {l m : List Char} (h : afterFirstGt l = some m) :
    m.length < l.length := by
  induction l with
  | nil => simp [afterFirstGt] at h
  | cons c rest ih =>
    rw [afterFirstGt] at h
    by_cases hc : c = '>'
    · rw [if_pos hc] at h
      cases h
      simp
    · rw [if_neg hc] at h
      have := ih h
      simp
      omega

theorem afterFirstGt_none {l : List Char} (h : afterFirstGt l = none) :
    l.contains '>' = false := by
  induction l with
  | nil => rfl
  | cons c rest ih =>
    rw [afterFirstGt] at h
    by_cases hc : c = '>'
    · rw [if_pos hc] at h; cases h
    · rw [if_neg hc] at h
      simp only [List.contains_cons, Bool.or_eq_false_iff, beq_eq_false_iff_ne]
      exact ⟨fun he => hc he.symm, ih h⟩

theorem afterFirstGt_some_contains {l m : List Char}
    (h : afterFirstGt l = some m) : l.contains '>' = true := by
  induction l with
  | nil => simp [afterFirstGt] at h
  | cons c rest ih =>
    rw [afterFirstGt] at h
    by_cases hc : c = '>'
    · simp [List.contains_cons, hc]
    · rw [if_neg hc] at h
      rw [List.contains_cons, ih h, Bool.or_true]

theorem hasTagMatch_eq_false_of_no_gt {l : List Char}
    (h : l.contains '>' = false) : hasTagMatch l = false := by
  induction l with
  | nil => rfl
  | cons c rest ih =>
    rw [List.contains_cons, Bool.or_eq_false_iff] at h
    rw [hasTagMatch, ih h.2, h.2]
    simp

/-- The output of a tag-strip pass contains no further tag match. -/
theorem hasTagMatch_stripTagsF :
    ∀ (fuel : Nat) (s : List Char), s.length ≤ fuel →
      hasTagMatch (stripTagsF fuel s) = false := by
  intro fuel
  induction fuel with
  | zero =>
    intro s hs
    have : s = [] := List.length_eq_zero.mp (Nat.le_zero.mp hs)
    subst this
    rfl
  | succ n ih =>
    intro s hs
    match s with
    | [] => rfl
    | c :: rest =>
      rw [stripTagsF]
      by_cases hc : c = '<'
      · rw [if_pos hc]
        cases hgt : afterFirstGt rest with
        | some rest2 =>
          have hlen : rest2.length ≤ n := by
            have h1 := afterFirstGt_length hgt
            simp at hs
            omega
          exact ih rest2 hlen
        | none =>
          have hno := afterFirstGt_none hgt
          rw [hasTagMatch, hasTagMatch_eq_false_of_no_gt hno, hno]
          simp
      · rw [if_neg hc]
        have hlen : rest.length ≤ n := by simp at hs; omega
        rw [hasTagMatch, ih rest hlen]
        simp [hc]

/-- A list with no tag match is left unchanged by a tag-strip pass. -/
theorem stripTagsF_of_no_match :
    ∀ (fuel : Nat) (s : List Char), hasTagMatch s = false →
      stripTagsF fuel s = s := by
  intro fuel
  induction fuel with
  | zero => intro s _; rfl
  | succ n ih =>
    intro s hs
    match s with
    | [] => rfl
    | c :: rest =>
      rw [hasTagMatch, Bool.or_eq_false_iff, Bool.and_eq_false_iff] at hs
      rw [stripTagsF]
      by_cases hc : c = '<'
      · rw [if_pos hc]
        cases hgt : afterFirstGt rest with
        | some rest2 =>
          exfalso
          rcases hs.1 with h | h
          · simp [hc] at h
          · rw [afterFirstGt_some_contains hgt] at h
            cases h
        | none => rfl
      · rw [if_neg hc, ih rest hs.2]

/-- The output of `stripTags` is a fixed point of `stripTags`. -/
theorem stripTags_idem (s : List Char) : stripTags (stripTags s) = stripTags s :=
  stripTagsF_of_no_match _ _ (hasTagMatch_stripTagsF s.length s le_rfl)

/-- C4 counterexample: the claim says the output of `strip_html` is a fixed
point of the decode-then-strip step.  On the doubly-encoded input
`&amp;lt;b&amp;gt;`, `strip_html` returns `&lt;b&gt;`; one further decode
pass turns this into the literal tag `<b>` and one further strip pass
removes it, so the decode-then-strip step applied to `strip_html`'s output
does reveal and remove an additional tag. -/
theorem c4_strip_html_not_decode_strip_fixed_point :
    strip_html "&amp;lt;b&amp;gt;" = "&lt;b&gt;" ∧
    stripTags (Sanitizer.decodeEntitiesL (strip_htmlL "&amp;lt;b&amp;gt;".toList)) ≠
      Sanitizer.decodeEntitiesL (strip_htmlL "&amp;lt;b&amp;gt;".toList) := by
  constructor
  · rfl
  · decide

/-- C4 (amended): `strip_html` performs exactly one literal tag-strip pass,
one entity-decode pass and one further tag-strip pass; its output is a fixed
point of the tag-strip pass alone (one further strip removes nothing), but
it is not in general a fixed point of decode-then-strip: a further decode
pass can reveal additional tags on doubly-encoded input, and the code has no
convergence loop to remove them. -/
theorem c4_strip_html_tag_strip_fixed_point :
    ∀ x : List Char,
      strip_htmlL x = stripTags (Sanitizer.decodeEntitiesL (stripTags x)) ∧
      stripTags (strip_htmlL x) = strip_htmlL x := by
  intro x
  exact ⟨rfl, stripTags_idem _⟩

theorem extractStep_mem {results : List (String × String)}
    (hres : ∀ p ∈ results, urlAllowed p.1 = true) (cand : String × String) :
    ∀ p ∈ extractStep results cand, urlAllowed p.1 = true := by
  intro p hp
  unfold extractStep at hp
  by_cases h : urlAllowed cand.1 = true ∧ results.all (fun r => r.1 ≠ cand.1)
  · rw [if_pos h] at hp
    rcases List.mem_append.mp hp with hm | hm
    · exact hres p hm
    · rw [List.mem_singleton.mp hm]
      exact h.1
  · rw [if_neg h] at hp
    exact hres p hp

theorem extract_foldl_mem :
    ∀ (cands : List (String × String)) (acc : List (String × String)),
      (∀ p ∈ acc, urlAllowed p.1 = true) →
      ∀ p ∈ cands.foldl extractStep acc, urlAllowed p.1 = true := by
  intro cands
  induction cands with
  | nil => intro acc hacc; exact hacc
  | cons c rest ih =>
    intro acc hacc
    rw [List.foldl_cons]
    exact ih (extractStep acc c) (extractStep_mem hacc c)

/-- An allowed URL cannot start with a scheme spelling that is
prefix-incomparable with all three allowed spellings: two prefixes of the
same list are comparable, and `bad` is comparable with none of the allowed
ones. -/
theorem no_bad_scheme {u : String} (h : urlAllowed u = true) (bad : List Char)
    (h1 : ¬(bad <+: "https://".toList ∨ "https://".toList <+: bad))
    (h2 : ¬(bad <+: "http://".toList ∨ "http://".toList <+: bad))
    (h3 : ¬(bad <+: "mailto:".toList ∨ "mailto:".toList <+: bad)) :
    bad.isPrefixOf u.toList = false := by
  by_contra hb
  rw [Bool.not_eq_false] at hb
  have hbad := List.isPrefixOf_iff_prefix.mp hb
  simp only [urlAllowed, Bool.or_eq_true] at h
  rcases h with (h | h) | h
  · exact h1 (List.prefix_or_prefix_of_prefix hbad (List.isPrefixOf_iff_prefix.mp h))
  · exact h2 (List.prefix_or_prefix_of_prefix hbad (List.isPrefixOf_iff_prefix.mp h))
  · exact h3 (List.prefix_or_prefix_of_prefix hbad (List.isPrefixOf_iff_prefix.mp h))

/-- C5: every `(url, text)` pair returned by `extract_hrefs` has a URL that
begins with `https://`, `http://` or `mailto:`; in particular no
`javascript:`, `data:` or `vbscript:` URL is ever returned.  The statement
quantifies over every candidate enumeration and every input string, so it
covers entity-encoded dangerous schemes as well: those are decoded before
the second enumeration and then dropped by the same filter. -/
theorem c5_extract_hrefs_scheme_allowlist :
    ∀ (captures : String → List (String × String)) (html : String)
      (p : String × String), p ∈ extract_hrefs captures html →
      urlAllowed p.1 = true ∧
      "javascript:".toList.isPrefixOf p.1.toList = false ∧
      "data:".toList.isPrefixOf p.1.toList = false ∧
      "vbscript:".toList.isPrefixOf p.1.toList = false := by
  intro captures html p hp
  unfold extract_hrefs at hp
  have hall : urlAllowed p.1 = true := by
    refine extract_foldl_mem _ _ ?_ p hp
    intro q hq
    exact (List.mem_filter.mp hq).2
  refine ⟨hall, ?_, ?_, ?_⟩
  · exact no_bad_scheme hall _ (by decide) (by decide) (by decide)
  · exact no_bad_scheme hall _ (by decide) (by decide) (by decide)
  · exact no_bad_scheme hall _ (by decide) (by decide) (by decide)

/-- Witness for `c5_extract_hrefs_scheme_allowlist`: a concrete enumeration
producing one dangerous and one safe candidate; the returned pair is the
safe one and passes the allow-list. -/
theorem c5_extract_hrefs_scheme_allowlist_witness :
    urlAllowed ("https://a.com", "A").1 = true ∧
    "javascript:".toList.isPrefixOf ("https://a.com", "A").1.toList = false ∧
    "data:".toList.isPrefixOf ("https://a.com", "A").1.toList = false ∧
    "vbscript:".toList.isPrefixOf ("https://a.com", "A").1.toList = false :=
  c5_extract_hrefs_scheme_allowlist
    (fun _ => [("javascript:alert(1)", "x"), ("https://a.com", "A")])
    "page" ("https://a.com", "A") (by decide)

/-- C10: on tag-free plain text that contains a `<` followed later by a `>`,
`strip_html` deletes the whole span from the `<` through the `>` inclusive:
`"5 < 10 and 20 > 15"` becomes `"5  15"`, not the unchanged input. -/
theorem c10_strip_html_deletes_angle_span :
    strip_html "5 < 10 and 20 > 15" = "5  15" ∧
    strip_html "5 < 10 and 20 > 15" ≠ "5 < 10 and 20 > 15" := by
  constructor
  · rfl
  · decide

theorem dropWhile_append_all {p : Char → Bool} :
    ∀ (ws l : List Char), (∀ c ∈ ws, p c = true) →
      List.dropWhile p (ws ++ l) = List.dropWhile p l := by
  intro ws
  induction ws with
  | nil => intro l _; rfl
  | cons c rest ih =>
    intro l h
    rw [List.cons_append, List.dropWhile_cons, if_pos (h c (List.mem_cons_self c rest))]
    exact ih l (fun d hd => h d (List.mem_cons_of_mem c hd))

theorem vocab_head_not_space {name : List Char} (h : name ∈ vocabNames) :
    ∃ c cs, name = c :: cs ∧ isSpaceChar c = false ∧ c ≠ '/' := by
  rw [vocabNames] at h
  rcases List.mem_cons.mp h with rfl | h
  · exact ⟨'b', [], rfl, by decide, by decide⟩
  rcases List.mem_cons.mp h with rfl | h
  · exact ⟨'i', [], rfl, by decide, by decide⟩
  rcases List.mem_cons.mp h with rfl | h
  · exact ⟨'u', [], rfl, by decide, by decide⟩
  rcases List.mem_cons.mp h with rfl | h
  · exact ⟨'a', [], rfl, by decide, by decide⟩
  rcases List.mem_cons.mp h with rfl | h
  · exact ⟨'p', [], rfl, by decide, by decide⟩
  rcases List.mem_cons.mp h with rfl | h
  · exact ⟨'b', ['r'], rfl, by decide, by decide⟩
  exact absurd h (List.not_mem_nil _)

theorem richTail_iff (tail : List Char) : richTail tail = true ↔ TailOk tail := by
  constructor
  · intro h
    match tail with
    | [] => cases h
    | c :: rest =>
      rw [richTail, Bool.or_eq_true, Bool.and_eq_true] at h
      rcases h with h | ⟨hw, hc⟩
      · rw [decide_eq_true_iff] at h
        exact Or.inl ⟨rest, by rw [h]⟩
      · exact Or.inr ⟨c, rest, rfl, hw, List.mem_of_elem_eq_true hc⟩
  · intro h
    rcases h with ⟨t, rfl⟩ | ⟨w, t, rfl, hw, hm⟩
    · rw [richTail]
      simp
    · rw [richTail, Bool.or_eq_true, Bool.and_eq_true]
      exact Or.inr ⟨hw, List.elem_eq_true_of_mem hm⟩

theorem matchRichAt_of_decomp {ws sl name tail : List Char}
    (hws : ∀ c ∈ ws, isSpaceChar c = true) (hsl : sl = [] ∨ sl = ['/'])
    (hname : name ∈ vocabNames) (htail : TailOk tail) :
    matchRichAt ('<' :: (ws ++ sl ++ name ++ tail)) = true := by
  obtain ⟨c0, cs, hn, hns, hnsl⟩ := vocab_head_not_space hname
  subst hn
  have hne : ¬((some c0 : Option Char) = some '/') := by
    intro hcon
    rw [Option.some_inj] at hcon
    exact hnsl hcon
  rw [matchRichAt, if_pos rfl]
  rcases hsl with rfl | rfl
  · have h1 : List.dropWhile isSpaceChar (ws ++ [] ++ (c0 :: cs) ++ tail) =
        c0 :: (cs ++ tail) := by
      rw [List.append_nil, List.append_assoc, dropWhile_append_all ws _ hws,
        List.cons_append, List.dropWhile_cons, hns]
      simp
    rw [h1]
    have h2 : stripLeadSlash (c0 :: (cs ++ tail)) = c0 :: (cs ++ tail) := by
      rw [stripLeadSlash, List.head?_cons, if_neg hne]
    rw [h2, List.any_eq_true]
    refine ⟨c0 :: cs, hname, ?_⟩
    rw [Bool.and_eq_true]
    refine ⟨List.isPrefixOf_iff_prefix.mpr ⟨tail, by rw [List.cons_append]⟩, ?_⟩
    have h3 : (c0 :: (cs ++ tail)).drop (c0 :: cs).length = tail := by
      rw [List.length_cons, List.drop_succ_cons, List.drop_left]
    rw [h3]
    exact (richTail_iff tail).mpr htail
  · have h1 : List.dropWhile isSpaceChar (ws ++ ['/'] ++ (c0 :: cs) ++ tail) =
        '/' :: ((c0 :: cs) ++ tail) := by
      rw [List.append_assoc, List.append_assoc, dropWhile_append_all ws _ hws,
        List.singleton_append, List.dropWhile_cons,
        show isSpaceChar '/' = false from rfl]
      simp
    rw [h1]
    have h2 : stripLeadSlash ('/' :: ((c0 :: cs) ++ tail)) = (c0 :: cs) ++ tail := by
      rw [stripLeadSlash, List.head?_cons, if_pos rfl]
      rfl
    rw [h2, List.any_eq_true]
    refine ⟨c0 :: cs, hname, ?_⟩
    rw [Bool.and_eq_true]
    refine ⟨List.isPrefixOf_iff_prefix.mpr (List.prefix_append _ tail), ?_⟩
    rw [List.drop_left]
    exact (richTail_iff tail).mpr htail

theorem hasRichAux_iff : ∀ s : List Char, hasRichAux s = true ↔ HasVocabTag s := by
  intro s
  induction s with
  | nil =>
    constructor
    · intro h; cases h
    · rintro ⟨pre, ws, sl, name, tail, h, -, -, -, -⟩
      exact absurd h (by simp)
  | cons c rest ih =>
    rw [hasRichAux, Bool.or_eq_true]
    constructor
    · intro h
      rcases h with h | h
      · rw [matchRichAt] at h
        by_cases hc : c = '<'
        · rw [if_pos hc] at h
          rw [List.any_eq_true] at h
          obtain ⟨name, hname, hcond⟩ := h
          rw [Bool.and_eq_true] at hcond
          obtain ⟨t, ht⟩ := List.isPrefixOf_iff_prefix.mp hcond.1
          have hdropt :
              (stripLeadSlash (List.dropWhile isSpaceChar rest)).drop name.length
                = t := by
            rw [← ht, List.drop_left]
          have hrich : richTail t = true := by
            rw [← hdropt]
            exact hcond.2
          have hsplit : List.dropWhile isSpaceChar rest =
              (if (List.dropWhile isSpaceChar rest).head? = some '/'
                then ['/'] else [])
              ++ stripLeadSlash (List.dropWhile isSpaceChar rest) := by
            rw [stripLeadSlash]
            by_cases hh : (List.dropWhile isSpaceChar rest).head? = some '/'
            · rw [if_pos hh, if_pos hh]
              cases hdw : List.dropWhile isSpaceChar rest with
              | nil =>
                rw [hdw] at hh
                cases hh
              | cons a r =>
                rw [hdw] at hh
                rw [List.head?_cons, Option.some_inj] at hh
                subst hh
                rfl
            · rw [if_neg hh, if_neg hh, List.nil_append]
          refine ⟨[], rest.takeWhile isSpaceChar,
            (if (List.dropWhile isSpaceChar rest).head? = some '/'
              then ['/'] else []),
            name, t, ?_, ?_, ?_, hname, (richTail_iff t).mp hrich⟩
          · rw [List.nil_append, hc, List.cons.injEq]
            refine ⟨rfl, ?_⟩
            rw [List.append_assoc, List.append_assoc, ht, ← hsplit,
              List.takeWhile_append_dropWhile]
          · intro d hd
            exact List.mem_takeWhile_imp hd
          · by_cases hh : (List.dropWhile isSpaceChar rest).head? = some '/'
            · rw [if_pos hh]
              exact Or.inr rfl
            · rw [if_neg hh]
              exact Or.inl rfl
        · rw [if_neg hc] at h
          cases h
      · obtain ⟨pre, ws, sl, name, tail, hdec, hws, hsl, hname, htail⟩ := ih.mp h
        exact ⟨c :: pre, ws, sl, name, tail, by rw [hdec]; rfl, hws, hsl, hname,
          htail⟩
    · rintro ⟨pre, ws, sl, name, tail, hdec, hws, hsl, hname, htail⟩
      match pre, hdec with
      | [], hdec =>
        rw [List.nil_append, List.cons.injEq] at hdec
        left
        rw [hdec.1, hdec.2]
        exact matchRichAt_of_decomp hws hsl hname htail
      | p0 :: pre1, hdec =>
        rw [List.cons_append, List.cons.injEq] at hdec
        right
        rw [ih]
        exact ⟨pre1, ws, sl, name, tail, hdec.2, hws, hsl, hname, htail⟩

/-- C7 counterexample: the claim says bare `<` / `>` used as comparison
operators in plain text never make `has_rich_content` return true.  The
plain text `"3 < i and j > 1"` contains no markup tag, yet the regex
`<\s*/?(?:b|i|u|a|p|br)(?:\s+[^>]*)?>` matches the span `< i and j >`
(whitespace after `<`, the vocabulary letter `i`, whitespace, then a later
`>`), so the function returns true. -/
theorem c7_bare_comparison_triggers :
    has_rich_content "3 < i and j > 1" = true := by
  rfl

/-- C7 (amended): `has_rich_content` returns true iff the text contains a
`<`, then optional whitespace, an optional `/`, one of the vocabulary names
`b`,`i`,`u`,`a`,`p`,`br`, and then either an immediate `>` or a whitespace
character with a `>` somewhere after it.  Entity-escaped tags such as
`&lt;b&gt;` never trigger it (no `<` at all), and digit-only comparisons
such as `5 < 10 and 10 > 5` do not trigger it, but bare comparison
operators can trigger it when a vocabulary letter follows the `<` (e.g.
`3 < i and j > 1`). -/
theorem c7_has_rich_content_amended :
    (∀ s : List Char, hasRichAux s = true ↔ HasVocabTag s) ∧
    has_rich_content "&lt;b&gt;escaped&lt;/b&gt;" = false ∧
    has_rich_content "5 < 10 and 10 > 5" = false ∧
    has_rich_content "3 < i and j > 1" = true ∧
    has_rich_content "<b>text</b>" = true ∧
    has_rich_content "line<br>break" = true ∧
    has_rich_content "Just plain text" = false := by
  exact ⟨hasRichAux_iff, rfl, rfl, rfl, rfl, rfl, rfl⟩

namespace Markup

theorem chain_mergeStep {acc : List StyledSegment}
    (h : List.Chain' (fun a b => ¬Mergeable a b) acc) (seg : StyledSegment) :
    List.Chain' (fun a b => ¬Mergeable a b) (mergeStep acc seg) := by
  rcases List.eq_nil_or_concat acc with rfl | ⟨init, last, rfl⟩
  · simp [mergeStep]
  · rw [List.concat_eq_append] at h ⊢
    by_cases hm : last.style = seg.style ∧ last.link = seg.link
    · have hms : mergeStep (init ++ [last]) seg =
          init ++ [{ last with text := last.text ++ seg.text }] := by
        simp [mergeStep, List.getLast?_concat, List.dropLast_concat, hm]
      rw [hms]
      rw [List.chain'_append] at h ⊢
      refine ⟨h.1, List.chain'_singleton _, ?_⟩
      intro x hx y hy
      rw [List.head?_cons, Option.mem_def, Option.some_inj] at hy
      subst hy
      exact h.2.2 x hx last (by simp)
    · have hms : mergeStep (init ++ [last]) seg = (init ++ [last]) ++ [seg] := by
        simp [mergeStep, List.getLast?_concat, hm]
      rw [hms]
      rw [List.chain'_append]
      refine ⟨h, List.chain'_singleton _, ?_⟩
      intro x hx y hy
      rw [List.getLast?_concat, Option.mem_def, Option.some_inj] at hx
      rw [List.head?_cons, Option.mem_def, Option.some_inj] at hy
      subst hx
      subst hy
      exact hm

theorem chain_merge_foldl :
    ∀ (l acc : List StyledSegment),
      List.Chain' (fun a b => ¬Mergeable a b) acc →
      List.Chain' (fun a b => ¬Mergeable a b) (l.foldl mergeStep acc) := by
  intro l
  induction l with
  | nil => intro acc h; exact h
  | cons seg rest ih =>
    intro acc h
    rw [List.foldl_cons]
    exact ih (mergeStep acc seg) (chain_mergeStep h seg)

end Markup

/-- C6 counterexample: the claim says that on a mismatched closing tag no
frame is popped.  In the code `style_stack.pop()` runs unconditionally: with
one `("b", default, none)` frame on the stack, closing `</i>` leaves the
stack empty, and observably `parse_markup "<b>A</i>B</b>C"` renders `A`,
`B` and `C` all bold — the stray `</i>` consumed the `b` frame, so the
later `</b>` found an empty stack and never restored the default style. -/
theorem c6_mismatched_close_pops_frame :
    (Markup.handleClosing "i"
        ⟨[], Markup.defaultStyle, none, [("b", Markup.defaultStyle, none)]⟩).stack = [] ∧
    Markup.parse_markup "<b>A</i>B</b>C" =
      [⟨"ABC", ⟨true, false, false⟩, none⟩] := by
  exact ⟨rfl, rfl⟩

/-- C6 (amended): on a closing tag, an empty stack leaves the state
unchanged; a nonempty stack always loses its top frame (even on a
mismatch), the emitted segments are untouched, and the saved style and link
are restored exactly when the closing tag name equals the popped frame's
tag kind — on a mismatch the current style and link are left unchanged. -/
theorem c6_closing_tag_amended :
    ∀ (st : Markup.ParseState) (tag : String),
      (st.stack = [] → Markup.handleClosing tag st = st) ∧
      (∀ (exp : String) (ps : Markup.TextStyle) (pl : Option String)
          (rest : List (String × Markup.TextStyle × Option String)),
        st.stack = (exp, ps, pl) :: rest →
        (Markup.handleClosing tag st).stack = rest ∧
        (Markup.handleClosing tag st).segments = st.segments ∧
        (exp = tag →
          (Markup.handleClosing tag st).style = ps ∧
          (Markup.handleClosing tag st).link = pl) ∧
        (exp ≠ tag →
          (Markup.handleClosing tag st).style = st.style ∧
          (Markup.handleClosing tag st).link = st.link)) := by
  intro st tag
  obtain ⟨segs, sty, lnk, stk⟩ := st
  cases stk with
  | nil =>
    refine ⟨fun _ => rfl, ?_⟩
    intro exp ps pl rest h
    exact absurd h (by simp)
  | cons frame rest0 =>
    obtain ⟨exp0, ps0, pl0⟩ := frame
    refine ⟨fun h => absurd h (by simp), ?_⟩
    intro exp ps pl rest h
    rw [List.cons.injEq, Prod.mk.injEq, Prod.mk.injEq] at h
    obtain ⟨⟨he, hp, hl⟩, hr⟩ := h
    subst he; subst hp; subst hl; subst hr
    by_cases heq : exp0 = tag
    · simp [Markup.handleClosing, heq]
    · simp [Markup.handleClosing, heq]

/-- Witness for `c6_closing_tag_amended`: applied at a concrete state with a
mismatched top frame, the frame is popped and the style is unchanged. -/
theorem c6_closing_tag_amended_witness :
    (Markup.handleClosing "i"
        ⟨[], ⟨true, false, false⟩, none, [("b", Markup.defaultStyle, none)]⟩).stack = [] ∧
    (Markup.handleClosing "i"
        ⟨[], ⟨true, false, false⟩, none, [("b", Markup.defaultStyle, none)]⟩).style =
      ⟨true, false, false⟩ := by
  have h := (c6_closing_tag_amended
      ⟨[], ⟨true, false, false⟩, none, [("b", Markup.defaultStyle, none)]⟩ "i").2
      "b" Markup.defaultStyle none [] rfl
  exact ⟨h.1, (h.2.2.2 (by decide)).1⟩

/-- C8: the segment sequence returned by `parse_markup` never contains two
consecutive segments with equal `(style, link)`: the final `merge_segments`
pass only ever appends a segment after checking it against the last emitted
one, so the no-adjacent-mergeable-segments invariant holds for every
input. -/
theorem c8_no_adjacent_mergeable_segments :
    ∀ html : String,
      List.Chain' (fun a b : Markup.StyledSegment =>
        ¬(a.style = b.style ∧ a.link = b.link)) (Markup.parse_markup html) := by
  intro html
  unfold Markup.parse_markup Markup.merge_segments
  exact Markup.chain_merge_foldl _ _ List.chain'_nil
